import Mathlib

/-!
Verification of the Prime-Curvature Spectral Engine of the OnGravity
repository.  Shallow embedding of the pipeline pieces referenced by the
claims: the Eratosthenes sieve and `generate_primes` retry loop
(`python/nm_hamiltonian.py`, `python/nm-prover/prime-index-curvature.py`),
the sliding-window composite-density code
(`python/nm-prover/real-spectrum-vs-zeros.py`, `python/rhz.py`),
the Laplacian/Hamiltonian assemblers, the eigensolver wrappers, the affine
fitter/evaluator, the optional curvature post-transforms, and the checkpoint
resume logic.  Machine floats are modelled over exact rationals (with
`Real.log` / `Real.sqrt` where the formulas are genuinely transcendental,
and an abstract `lg` parameter where only the call structure matters);
numpy operations that raise are modelled with `Except`.
-/

namespace OnGravity

/-! ## Sieve of Eratosthenes

Functional model of the sieve used across the repository
(`nm_hamiltonian.py` lines 70-75 and the identical copies):
`is_prime = np.ones(limit+1); is_prime[:2] = False;
for p in range(2, int(np.sqrt(limit)) + 1): if is_prime[p]:
is_prime[p*p::p] = False`.  The boolean array is modelled as a function
`Nat -> Bool`; queries are only ever made at indices `<= limit`, matching
the array bounds. -/

/-- One iteration of the sieve loop body: if the table still marks `p` as
prime, clear every multiple of `p` from `p * p` on. -/
def sieveStep (s : ℕ → Bool) (p : ℕ) : ℕ → Bool :=
  if s p then (fun n => if p * p ≤ n ∧ p ∣ n then false else s n) else s

/-- The sieve table after running the marking loop for
`p = 2 .. int(sqrt(limit))`, starting from the all-true table with
indices 0 and 1 cleared. -/
def sieveFun (limit : ℕ) : ℕ → Bool :=
  (List.range' 2 (Nat.sqrt limit - 1)).foldl sieveStep (fun n => decide (2 ≤ n))

/-- `np.nonzero(is_prime)[0]`: the sorted list of sieve-marked numbers up
to `limit`. -/
def primesUpto (limit : ℕ) : List ℕ :=
  (List.range (limit + 1)).filter (sieveFun limit)

/-- `generate_primes` of `nm_hamiltonian.py` (lines 59-79, identical in
`prime-index-curvature-hilbert-grid.py`): sieve up to a working limit,
and if fewer than `numPrimes` primes were found grow the limit by the
factor 1.5 (`int(limit * 1.5)`, i.e. `limit * 3 / 2` in integer
arithmetic) and retry; finally truncate to the first `numPrimes` entries.
The initial `limit` models the float heuristic `approx_nth_prime`, whose
value is always `>= 15`; any starting limit `>= 2` is allowed here. -/
def generate_primes (numPrimes limit : ℕ) (hl : 2 ≤ limit) : List ℕ :=
  if h : numPrimes ≤ (primesUpto limit).length then
    (primesUpto limit).take numPrimes
  else
    generate_primes numPrimes (limit * 3 / 2) (by omega)
termination_by Nat.nth Nat.Prime numPrimes + 2 - limit
decreasing_by
  have hgrow : limit < limit * 3 / 2 := by omega
  have hub : limit < Nat.nth Nat.Prime numPrimes + 2 := by
    by_contra hcon
    push_neg at hcon
    apply h
    have key : ∀ (l : List ℕ) (s : ℕ → Bool), (∀ q ∈ l, 2 ≤ q) →
        ∀ n, Nat.Prime n → s n = true → (l.foldl sieveStep s) n = true := by
      intro l
      induction l with
      | nil => intro s _ n _ hs; exact hs
      | cons a t ih =>
        intro s hq n hn hs
        rw [List.foldl_cons]
        refine ih _ (fun q hql => hq q (List.mem_cons_of_mem _ hql)) n hn ?_
        unfold sieveStep
        by_cases hsa : s a = true
        · rw [if_pos hsa]
          show (if a * a ≤ n ∧ a ∣ n then false else s n) = true
          by_cases hcond : a * a ≤ n ∧ a ∣ n
          · exfalso
            rcases (hn.eq_one_or_self_of_dvd a hcond.2) with h1 | h2
            · have := hq a (List.mem_cons_self a t); omega
            · subst h2
              have h2le := hn.two_le
              nlinarith [hcond.1]
          · rw [if_neg hcond]; exact hs
        · rw [if_neg hsa]; exact hs
    have hmem : ∀ i, i < numPrimes → Nat.nth Nat.Prime i ∈ primesUpto limit := by
      intro i hi
      have hip : (Nat.nth Nat.Prime i).Prime := Nat.prime_nth_prime i
      have hile : Nat.nth Nat.Prime i ≤ Nat.nth Nat.Prime numPrimes :=
        (Nat.nth_le_nth Nat.infinite_setOf_prime).2 (by omega)
      unfold primesUpto
      rw [List.mem_filter]
      refine ⟨List.mem_range.2 (by omega), ?_⟩
      unfold sieveFun
      refine key _ _ (fun q hq2 => ?_) _ hip (decide_eq_true hip.two_le)
      have := List.mem_range'_1.1 hq2
      omega
    have hsub : ((List.range numPrimes).map (Nat.nth Nat.Prime)) ⊆ primesUpto limit := by
      intro x hx
      rw [List.mem_map] at hx
      obtain ⟨i, hi, rfl⟩ := hx
      exact hmem i (List.mem_range.1 hi)
    have hnd : ((List.range numPrimes).map (Nat.nth Nat.Prime)).Nodup :=
      (List.nodup_range numPrimes).map (Nat.nth_injective Nat.infinite_setOf_prime)
    have hle := (List.subperm_of_subset hnd hsub).length_le
    simpa using hle
  omega

/-- The primes-without-2 pool of `prime-index-curvature.py`
(`primes = primes[primes != 2]`, line 552). -/
def primesNo2Upto (limit : ℕ) : List ℕ :=
  (primesUpto limit).filter (fun p => p ≠ 2)

/-- `generate_primes` of `prime-index-curvature.py` (lines 532-557): same
sieve/retry loop, but 2 is dropped from the pool before the count check
and the truncation, so the result starts at 3. -/
def generate_primes_no2 (numPrimes limit : ℕ) (hl : 2 ≤ limit) : List ℕ :=
  if h : numPrimes ≤ (primesNo2Upto limit).length then
    (primesNo2Upto limit).take numPrimes
  else
    generate_primes_no2 numPrimes (limit * 3 / 2) (by omega)
termination_by Nat.nth Nat.Prime (numPrimes + 1) + 2 - limit
decreasing_by
  have hgrow : limit < limit * 3 / 2 := by omega
  have hub : limit < Nat.nth Nat.Prime (numPrimes + 1) + 2 := by
    by_contra hcon
    push_neg at hcon
    apply h
    have key : ∀ (l : List ℕ) (s : ℕ → Bool), (∀ q ∈ l, 2 ≤ q) →
        ∀ n, Nat.Prime n → s n = true → (l.foldl sieveStep s) n = true := by
      intro l
      induction l with
      | nil => intro s _ n _ hs; exact hs
      | cons a t ih =>
        intro s hq n hn hs
        rw [List.foldl_cons]
        refine ih _ (fun q hql => hq q (List.mem_cons_of_mem _ hql)) n hn ?_
        unfold sieveStep
        by_cases hsa : s a = true
        · rw [if_pos hsa]
          show (if a * a ≤ n ∧ a ∣ n then false else s n) = true
          by_cases hcond : a * a ≤ n ∧ a ∣ n
          · exfalso
            rcases (hn.eq_one_or_self_of_dvd a hcond.2) with h1 | h2
            · have := hq a (List.mem_cons_self a t); omega
            · subst h2
              have h2le := hn.two_le
              nlinarith [hcond.1]
          · rw [if_neg hcond]; exact hs
        · rw [if_neg hsa]; exact hs
    have hmem : ∀ i, i < numPrimes →
        Nat.nth Nat.Prime (i + 1) ∈ primesNo2Upto limit := by
      intro i hi
      have hip : (Nat.nth Nat.Prime (i + 1)).Prime := Nat.prime_nth_prime (i + 1)
      have hile : Nat.nth Nat.Prime (i + 1) ≤ Nat.nth Nat.Prime (numPrimes + 1) :=
        (Nat.nth_le_nth Nat.infinite_setOf_prime).2 (by omega)
      have hgt : Nat.nth Nat.Prime 0 < Nat.nth Nat.Prime (i + 1) :=
        (Nat.nth_lt_nth Nat.infinite_setOf_prime).2 (by omega)
      have h0 : 2 ≤ Nat.nth Nat.Prime 0 := (Nat.prime_nth_prime 0).two_le
      unfold primesNo2Upto
      rw [List.mem_filter]
      constructor
      · unfold primesUpto
        rw [List.mem_filter]
        refine ⟨List.mem_range.2 (by omega), ?_⟩
        unfold sieveFun
        refine key _ _ (fun q hq2 => ?_) _ hip (decide_eq_true hip.two_le)
        have := List.mem_range'_1.1 hq2
        omega
      · exact decide_eq_true (by omega)
    have hsub : ((List.range numPrimes).map (fun i => Nat.nth Nat.Prime (i + 1)))
        ⊆ primesNo2Upto limit := by
      intro x hx
      rw [List.mem_map] at hx
      obtain ⟨i, hi, rfl⟩ := hx
      exact hmem i (List.mem_range.1 hi)
    have hnd : ((List.range numPrimes).map (fun i => Nat.nth Nat.Prime (i + 1))).Nodup :=
      (List.nodup_range numPrimes).map
        (fun a b hab => Nat.succ_injective (Nat.nth_injective Nat.infinite_setOf_prime hab))
    have hle := (List.subperm_of_subset hnd hsub).length_le
    simpa using hle
  omega

/-! ## Sliding-window composite density (`real-spectrum-vs-zeros.py` 24-38,
also `rhz.py` `build_operator` lines 23-35). -/

/-- Number of leading entries of a list satisfying `stop`: the functional
form of `while j < len(primes) and stop(primes[j]): j += 1` acting on the
suffix starting at `j`. -/
def skipCount (stop : ℤ → Bool) : List ℤ → ℕ
  | [] => 0
  | p :: ps => if stop p then skipCount stop ps + 1 else 0

/-- Advance the pointer `j` through `primes` while in bounds and `stop`
holds. -/
def skipWhile (primes : List ℤ) (stop : ℤ → Bool) (j : ℕ) : ℕ :=
  j + skipCount stop (primes.drop j)

/-- The body of `local_composite_fraction`: walk the support points with a
single persistent pointer `j`, exactly as in the source (the same `j` is
used for the left scan and then for the right scan, and it is never moved
backwards between support points). -/
def lcfGo (primes : List ℤ) (window : ℤ) : List ℤ → ℕ → List ℚ
  | [], _ => []
  | n :: rest, j =>
    let left := skipWhile primes (fun p => p < n - window) j
    let j2 := skipWhile primes (fun p => p ≤ n + window) left
    (1 - ((j2 - left : ℕ) : ℚ) / (2 * (window : ℚ) + 1)) :: lcfGo primes window rest j2

/-- `local_composite_fraction(primes, n_vec, window)` of
`real-spectrum-vs-zeros.py` (lines 24-38). -/
def local_composite_fraction (primes nVec : List ℤ) (window : ℤ) : List ℚ :=
  lcfGo primes window nVec 0

/-- Modelled from the spec: the brute-force O(N*R) recomputation the
sliding-window code is claimed to match — for each support point, one
minus the number of primes in `[n - window, n + window]` divided by the
window size `2 * window + 1`. -/
def bruteCompositeFraction (primes nVec : List ℤ) (window : ℤ) : List ℚ :=
  nVec.map fun n =>
    1 - ((primes.countP fun p => n - window ≤ p ∧ p ≤ n + window : ℕ) : ℚ)
      / (2 * (window : ℚ) + 1)

/-! ## Tri-diagonal operator assembly

`scipy.sparse.diags([sub, main, sup], offsets=[-1, 0, 1])` is modelled as
the entry function of the matrix. -/

/-- Entry `(i, j)` of the tri-diagonal matrix with sub-diagonal `sub`,
main diagonal `main` and super-diagonal `sup`. -/
def tridiag (sub main sup : List ℚ) (i j : ℕ) : ℚ :=
  if i = j then main.getD i 0
  else if i = j + 1 then sub.getD j 0
  else if j = i + 1 then sup.getD i 0
  else 0

/-- `np.diff`: local spacings `h[i] = t[i+1] - t[i]`. -/
def diffQ (t : List ℚ) : List ℚ :=
  List.zipWith (fun a b => b - a) t t.tail

namespace NmH

/-- `build_laplacian_index` of `nm_hamiltonian.py` (lines 150-164):
uniform index-grid stencil, `2` on the diagonal, `-1` off, with the
endpoint clamp `1e6`. -/
def build_laplacian_index (n : ℕ) : List ℚ × List ℚ :=
  ((List.range n).map fun i => if i = 0 ∨ i = n - 1 then 1000000 else 2,
   List.replicate (n - 1) (-1))

/-- `build_laplacian_log` of `nm_hamiltonian.py` (lines 167-200): the
symmetric quadratic-form stencil on the non-uniform grid `t`, with a
shared off-diagonal array `-1/h` and endpoint clamp `1e6`.  (When some
spacing is zero Python produces `inf`; the rational model yields `1/0 = 0`
there — the symmetry structure is unaffected.) -/
def build_laplacian_log (t : List ℚ) : List ℚ × List ℚ :=
  let N := t.length
  let h := diffQ t
  ((List.range N).map fun i =>
     if i = 0 ∨ i = N - 1 then 1000000
     else 1 / h.getD (i - 1) 0 + 1 / h.getD i 0,
   h.map fun x => -1 / x)

/-- `build_hamiltonian` of `nm_hamiltonian.py` (lines 203-212):
`H = diags([off, main_lap + potential, off], [-1, 0, 1])`. -/
def build_hamiltonian (mainLap off potential : List ℚ) : ℕ → ℕ → ℚ :=
  tridiag off (List.zipWith (· + ·) mainLap potential) off

end NmH

namespace HG

/-- `build_laplacian_log_grid` of
`prime-index-curvature-hilbert-grid.py` (lines 256-289): the three-point
finite-difference stencil for unevenly spaced nodes.  For interior
`i = 1 .. N-2`: `main[i] = 2/(h[i-1] h[i])`,
`off_minus[i-1] = -1/(h[i-1](h[i-1]+h[i]))`,
`off_plus[i] = -1/(h[i](h[i-1]+h[i]))`; endpoints of `main` are clamped
to `1e9`; the untouched entries of the off-diagonals stay `0`. -/
def build_laplacian_log_grid (t : List ℚ) : List ℚ × List ℚ × List ℚ :=
  let N := t.length
  let h := diffQ t
  ((List.range N).map fun i =>
      if i = 0 ∨ i = N - 1 then 1000000000
      else 2 / (h.getD (i - 1) 0 * h.getD i 0),
   (List.range (N - 1)).map fun idx =>
      if idx + 1 ≤ N - 2 then
        -1 / (h.getD idx 0 * (h.getD idx 0 + h.getD (idx + 1) 0))
      else 0,
   (List.range (N - 1)).map fun i =>
      if 1 ≤ i ∧ i ≤ N - 2 then
        -1 / (h.getD i 0 * (h.getD (i - 1) 0 + h.getD i 0))
      else 0)

/-- `build_hamiltonian_log` of `prime-index-curvature-hilbert-grid.py`
(lines 292-301): `diags([off_minus, main_L + V, off_plus], [-1, 0, 1])`. -/
def build_hamiltonian_log (mainL offMinus offPlus V : List ℚ) : ℕ → ℕ → ℚ :=
  tridiag offMinus (List.zipWith (· + ·) mainL V) offPlus

end HG

/-! ## Eigensolver wrappers

`scipy.sparse.linalg.eigsh` is external; its outcome is modelled
abstractly: either it returns a list of converged eigenvalues, or it
raises `ArpackNoConvergence` carrying the partial list that did converge
(the `.eigenvalues` attribute). -/

/-- Outcome of a call to the external iterative eigensolver. -/
inductive ArpackOutcome where
  | ok (vals : List ℚ)
  | noConv (vals : List ℚ)

/-- Error message standing for an exception propagating out of the
eigensolver wrapper. -/
def arpackRaiseMsg : String := "ArpackNoConvergence re-raised"

namespace Rhz

/-- `compute_eigenvalues` of `rhz.py` (lines 68-101): cap the request at
`N - 1`, call `eigsh`; on `ArpackNoConvergence`, if the partial list is
empty re-raise, otherwise use it; finally sort ascending and truncate. -/
def compute_eigenvalues (N : ℕ) (outcome : ArpackOutcome) (target : ℕ) :
    Except String (List ℚ) :=
  let t := if N ≤ target then N - 1 else target
  match outcome with
  | .ok vs => .ok ((List.insertionSort (· ≤ ·) vs).take t)
  | .noConv vs =>
    if vs.length = 0 then .error arpackRaiseMsg
    else .ok ((List.insertionSort (· ≤ ·) vs).take t)

end Rhz

namespace NGrid

/-- `compute_evals` of `n-grid-operator.py` (lines 190-203): on
`ArpackNoConvergence` return `np.sort(e.eigenvalues[:k])` — no
re-raise. -/
def compute_evals (outcome : ArpackOutcome) (k : ℕ) : List ℚ :=
  match outcome with
  | .ok vs => List.insertionSort (· ≤ ·) vs
  | .noConv vs => List.insertionSort (· ≤ ·) (vs.take k)

end NGrid

namespace NmH

/-- `lowest_eigenvalues` of `nm_hamiltonian.py` (lines 215-223): ask
ARPACK for `min k (n - 2)` eigenvalues of the `n x n` operator and sort
what it returns.  `arpackVals` models the values returned by the
(successful) `eigsh` call, which has length `min k (n - 2)`. -/
def lowest_eigenvalues (n k : ℕ) (arpackVals : List ℚ) : List ℚ :=
  List.insertionSort (· ≤ ·) arpackVals

end NmH

/-! ## Model fitting and evaluation -/

/-- Error message standing for `np.polyfit` raising on an empty or
mismatched input. -/
def polyfitRaiseMsg : String := "polyfit raised on empty or mismatched input"

/-- Error message standing for `np.ndarray.max()` raising on a zero-size
array. -/
def emptyMaxRaiseMsg : String := "max raised on zero-size array"

/-- Error message standing for the `raise ValueError` on an unknown model
tag in `evaluate_model`. -/
def modelUnknownMsg : String := "Unknown model"

/-- Error message standing for a tuple-unpacking failure of `params`. -/
def unpackRaiseMsg : String := "params unpack failed"

/-- The model tag `affine` (the string dispatch of the source). -/
def affineTag : String := "affine"

/-- The model tag `log_n`. -/
def logNTag : String := "log_n"

/-- The model tag `log_lambda`. -/
def logLambdaTag : String := "log_lambda"

/-- `np.polyfit(x, y, 1)`: the degree-1 least-squares fit, modelled by its
normal-equation closed form over exact rationals.  `np.polyfit` raises on
an empty `x` or on length mismatch. -/
def polyfitDeg1 (x y : List ℚ) : Except String (ℚ × ℚ) :=
  if x.length = 0 ∨ x.length ≠ y.length then .error polyfitRaiseMsg
  else
    let n : ℚ := x.length
    let sx := x.sum
    let sy := y.sum
    let sxx := (x.map fun a => a * a).sum
    let sxy := (List.zipWith (· * ·) x y).sum
    let d := n * sxx - sx * sx
    let a := (n * sxy - sx * sy) / d
    .ok (a, (sy - a * sx) / n)

namespace NmH

/-- `fit_affine` of `nm_hamiltonian.py` (lines 230-241): fit
`zero ≈ a*eig + b` on the first `fit_n` levels via `np.polyfit`. -/
def fit_affine (eigs zeros : List ℚ) (fit_n : ℕ) : Except String (ℚ × ℚ) :=
  polyfitDeg1 (eigs.take fit_n) (zeros.take fit_n)

/-- `evaluate_fit` of `nm_hamiltonian.py` (lines 244-258): clamp `eval_n`
to the available lengths, map the eigenvalues through `a*x + b` and
report `(mean, max)` of the relative errors (in percent) together with
the mapped values.  `np.max` on a zero-size array raises. -/
def evaluate_fit (eigs zeros : List ℚ) (a b : ℚ) (eval_n : ℕ) :
    Except String (ℚ × ℚ × List ℚ) :=
  let en := min eval_n (min eigs.length zeros.length)
  let zh := (eigs.take en).map fun x => a * x + b
  let rel := List.zipWith (fun p z => |(p - z) / z| * 100) zh (zeros.take en)
  match rel with
  | [] => .error emptyMaxRaiseMsg
  | r :: rs => .ok ((r :: rs).sum / ((r :: rs).length : ℚ), rs.foldl max r, zh)

end NmH

namespace HG

/-- `fit_affine` of `prime-index-curvature-hilbert-grid.py` (lines
316-322): clamp `fit_n` to the available lengths, then `np.polyfit`. -/
def fit_affine (lam zeros : List ℚ) (fit_n : ℕ) : Except String (ℚ × ℚ) :=
  let fn := min fit_n (min lam.length zeros.length)
  polyfitDeg1 (lam.take fn) (zeros.take fn)

/-- `evaluate_model` of `prime-index-curvature-hilbert-grid.py` (lines
361-388): clamp `eval_n`, dispatch on the model tag (unknown tags raise),
build the predictions, and report `(mean, max, z_hat)` of the relative
errors.  `np.log` is passed in abstractly as `lg`. -/
def evaluate_model (lg : ℚ → ℚ) (model : String) (lam zeros params : List ℚ)
    (eval_n : ℕ) : Except String (ℚ × ℚ × List ℚ) :=
  let en := min eval_n (min lam.length zeros.length)
  let nIdx := (List.range en).map fun i => ((i + 1 : ℕ) : ℚ)
  let zres : Except String (List ℚ) :=
    if model = affineTag then
      match params with
      | [a, b] => .ok ((lam.take en).map fun x => a * x + b)
      | _ => .error unpackRaiseMsg
    else if model = logNTag then
      match params with
      | [a, c, b] => .ok (List.zipWith (fun x m => a * x + c * lg m + b) (lam.take en) nIdx)
      | _ => .error unpackRaiseMsg
    else if model = logLambdaTag then
      match params with
      | [a, c, b] => .ok ((lam.take en).map fun x => a * x + c * lg x + b)
      | _ => .error unpackRaiseMsg
    else .error modelUnknownMsg
  match zres with
  | .error e => .error e
  | .ok zh =>
    match List.zipWith (fun p z => |(p - z) / z| * 100) zh (zeros.take en) with
    | [] => .error emptyMaxRaiseMsg
    | r :: rs => .ok ((r :: rs).sum / ((r :: rs).length : ℚ), rs.foldl max r, zh)

end HG

/-! ## Optional curvature post-transforms -/

/-- Full discrete convolution (`np.convolve(a, v)` in `full` mode). -/
def convolveFull (a v : List ℚ) : List ℚ :=
  (List.range (a.length + v.length - 1)).map fun t =>
    ((List.range a.length).map fun j =>
      if j ≤ t ∧ t - j < v.length then a.getD j 0 * v.getD (t - j) 0 else 0).sum

/-- `np.convolve(a, v, mode="same")`: the centered slice of the full
convolution, of length `max (len a) (len v)`. -/
def convolveSame (a v : List ℚ) : List ℚ :=
  ((convolveFull a v).drop ((min a.length v.length - 1) / 2)).take
    (max a.length v.length)

namespace HG

/-- `maybe_smooth` of `prime-index-curvature-hilbert-grid.py` (lines
227-236): moving-average smoothing via `np.convolve(k, ones(w)/w,
mode="same")`, a no-op for `window <= 1` or `window > len(k)`. -/
def maybe_smooth (k : List ℚ) (window : ℕ) : List ℚ :=
  if window ≤ 1 then k
  else if k.length < window then k
  else convolveSame k (List.replicate window ((window : ℚ)⁻¹))

/-- Every `s`-th element of a list (`l[::s]`). -/
def everyNth (l : List ℚ) (s : ℕ) : List ℚ :=
  (List.range l.length).filterMap fun i =>
    if i % s = 0 then some (l.getD i 0) else none

/-- `maybe_downsample` of `prime-index-curvature-hilbert-grid.py` (lines
218-224): keep every `factor`-th point of both the support and the
field. -/
def maybe_downsample (p k : List ℚ) (factor : ℕ) : List ℚ × List ℚ :=
  if factor ≤ 1 then (p, k) else (everyNth p factor, everyNth k factor)

end HG

namespace PIC

/-- Helper for `apply_shape_correction`: walk the field with the 1-based
index `n`. -/
def shapeCorrGo (lg : ℚ → ℚ) (eta : ℚ) : ℕ → List ℚ → List ℚ
  | _, [] => []
  | n, x :: xs => x * (1 + eta * lg (n : ℚ)) :: shapeCorrGo lg eta (n + 1) xs

/-- `apply_shape_correction` of `prime-index-curvature.py` (lines
858-867): the multiplicative tail correction
`k[n] <- k[n] * (1 + eta * log n)` with `n = 1 .. len(k)`; `np.log` is the
abstract parameter `lg`. -/
def apply_shape_correction (lg : ℚ → ℚ) (k : List ℚ) (eta : ℚ) : List ℚ :=
  shapeCorrGo lg eta 1 k

end PIC

/-! ## Checkpoint resume (`real-spectrum-vs-zeros.py` lines 76-83)

The source (ignoring the stray `):`  token on line 77, which is a leftover
editing artifact) reads: if the checkpoint file exists, `pickle.load` it
and take `data['eigs']`; otherwise start with the empty list.  There is no
try/except around the load: a parse failure propagates. -/

/-- State of the checkpoint file at resume time: absent, or present with
the result of attempting to parse it (`none` = unparseable). -/
inductive CheckpointState where
  | absent
  | present (parsed : Option (List ℚ))

/-- Error message standing for an uncaught `pickle.load` failure. -/
def pickleRaiseMsg : String := "pickle.load raised"

namespace RSZ

/-- The resume step of `main` in `real-spectrum-vs-zeros.py` (lines
76-83). -/
def resume_checkpoint : CheckpointState → Except String (List ℚ)
  | .absent => .ok []
  | .present none => .error pickleRaiseMsg
  | .present (some eigs) => .ok eigs

end RSZ

/-! ## Curvature field (`nm_hamiltonian.py` lines 86-143, identical in
`prime-index-curvature-hilbert-grid.py` lines 170-215 whose module-level
`SMOOTHING_WINDOW` is `0`, making its trailing smoothing branch a
no-op). -/

/-- The composite mask `is_composite = ~is_prime; is_composite[0:2] =
False` over the sieve table up to `maxN`. -/
def isCompositeMask (maxN : ℕ) (n : ℕ) : Bool :=
  decide (2 ≤ n) && ! sieveFun maxN n

namespace NmH

/-- `compute_curvature_field` of `nm_hamiltonian.py` (lines 86-143): for
each prime `p` whose window `[p - R, p + R]` fits inside `[2, maxN]`,
`rho` = composite fraction of the window, `sigma = log(1 + rho log p)`,
`k = c * sigma^3 * sqrt(rho)`.  Returns the edge-trimmed primes and the
curvature values. -/
noncomputable def compute_curvature_field (primes : List ℕ)
    (window_radius : ℕ) (c : ℝ) : List ℕ × List ℝ :=
  let maxN := primes.getLastD 0 + window_radius + 5
  let kept := primes.filter fun p =>
    2 + window_radius ≤ p ∧ p + window_radius ≤ maxN
  (kept, kept.map fun p =>
    let cnt := (List.range' (p - window_radius) (2 * window_radius + 1)).countP
      (isCompositeMask maxN)
    let rho : ℝ := (cnt : ℝ) / (2 * (window_radius : ℝ) + 1)
    let sigma := Real.log (1 + rho * Real.log (p : ℝ))
    c * sigma ^ 3 * Real.sqrt rho)

end NmH

/-! ## Theorems -/

/-! ### Sieve correctness -/

/-- The marking loop never resurrects a cleared entry. -/
theorem foldl_sieveStep_false {n : ℕ} :
    ∀ (l : List ℕ) (s : ℕ → Bool), s n = false →
      (l.foldl sieveStep s) n = false := by
  intro l
  induction l with
  | nil => intro s hs; exact hs
  | cons a t ih =>
    intro s hs
    rw [List.foldl_cons]
    apply ih
    unfold sieveStep
    by_cases hsa : s a = true
    · rw [if_pos hsa]
      show (if a * a ≤ n ∧ a ∣ n then false else s n) = false
      by_cases hcond : a * a ≤ n ∧ a ∣ n
      · rw [if_pos hcond]
      · rw [if_neg hcond]; exact hs
    · rw [if_neg hsa]; exact hs

/-- The marking loop never clears a prime (as long as every loop index is
at least 2, which holds for `range(2, ...)`). -/
theorem foldl_sieveStep_prime {n : ℕ} (hn : n.Prime) :
    ∀ (l : List ℕ) (s : ℕ → Bool), (∀ q ∈ l, 2 ≤ q) → s n = true →
      (l.foldl sieveStep s) n = true := by
  intro l
  induction l with
  | nil => intro s _ hs; exact hs
  | cons a t ih =>
    intro s hq hs
    rw [List.foldl_cons]
    refine ih _ (fun q hql => hq q (List.mem_cons_of_mem _ hql)) ?_
    unfold sieveStep
    by_cases hsa : s a = true
    · rw [if_pos hsa]
      show (if a * a ≤ n ∧ a ∣ n then false else s n) = true
      by_cases hcond : a * a ≤ n ∧ a ∣ n
      · exfalso
        rcases hn.eq_one_or_self_of_dvd a hcond.2 with h1 | h2
        · have := hq a (List.mem_cons_self a t); omega
        · subst h2
          have h2le := hn.two_le
          nlinarith [hcond.1]
      · rw [if_neg hcond]; exact hs
    · rw [if_neg hsa]; exact hs

/-- If some prime `p` with `p * p ≤ n` divides `n` and `p` occurs among
the loop indices, the loop clears `n` (here the table is assumed to still
mark every prime, which the previous lemma maintains). -/
theorem foldl_sieveStep_clears {n p : ℕ} (hpp : p.Prime) (hsq : p * p ≤ n)
    (hdvd : p ∣ n) :
    ∀ (l : List ℕ) (s : ℕ → Bool), (∀ q ∈ l, 2 ≤ q) →
      (∀ q, q.Prime → s q = true) → p ∈ l →
      (l.foldl sieveStep s) n = false := by
  intro l
  induction l with
  | nil => intro s _ _ hp; exact absurd hp (List.not_mem_nil p)
  | cons a t ih =>
    intro s h2 hInv hp
    rw [List.foldl_cons]
    rcases List.mem_cons.1 hp with rfl | hpt
    · apply foldl_sieveStep_false
      unfold sieveStep
      rw [if_pos (hInv p hpp)]
      show (if p * p ≤ n ∧ p ∣ n then false else s n) = false
      rw [if_pos ⟨hsq, hdvd⟩]
    · refine ih _ (fun q hql => h2 q (List.mem_cons_of_mem _ hql)) ?_ hpt
      intro q hq
      unfold sieveStep
      by_cases hsa : s a = true
      · rw [if_pos hsa]
        show (if a * a ≤ q ∧ a ∣ q then false else s q) = true
        by_cases hcond : a * a ≤ q ∧ a ∣ q
        · exfalso
          rcases hq.eq_one_or_self_of_dvd a hcond.2 with h1 | hqa
          · have := h2 a (List.mem_cons_self a t); omega
          · subst hqa
            have := hq.two_le
            nlinarith [hcond.1]
        · rw [if_neg hcond]; exact hInv q hq
      · rw [if_neg hsa]; exact hInv q hq

/-- Correctness of the sieve: within the array bounds the final table
marks exactly the primes. -/
theorem sieveFun_eq_true_iff {limit n : ℕ} (hn : n ≤ limit) :
    sieveFun limit n = true ↔ n.Prime := by
  constructor
  · intro htrue
    by_contra hnp
    rcases Nat.lt_or_ge n 2 with hlt2 | hge2
    · have hfalse : sieveFun limit n = false := by
        unfold sieveFun
        apply foldl_sieveStep_false
        exact decide_eq_false (by omega)
      rw [hfalse] at htrue
      exact Bool.false_ne_true htrue
    · have hpp : n.minFac.Prime := Nat.minFac_prime (by omega)
      have hdvd : n.minFac ∣ n := Nat.minFac_dvd n
      have hsq : n.minFac * n.minFac ≤ n := by
        have h := Nat.minFac_sq_le_self (by omega) hnp
        nlinarith [h]
      have hmem : n.minFac ∈ List.range' 2 (Nat.sqrt limit - 1) := by
        rw [List.mem_range'_1]
        have hple : n.minFac ≤ Nat.sqrt limit :=
          Nat.le_sqrt.2 (le_trans hsq hn)
        have h2p : 2 ≤ n.minFac := hpp.two_le
        have h2s : 2 ≤ Nat.sqrt limit := le_trans h2p hple
        omega
      have hfalse : sieveFun limit n = false := by
        unfold sieveFun
        exact foldl_sieveStep_clears hpp hsq hdvd _ _
          (fun q hql => (List.mem_range'_1.1 hql).1)
          (fun q hq => decide_eq_true hq.two_le) hmem
      rw [hfalse] at htrue
      exact Bool.false_ne_true htrue
  · intro hn'
    unfold sieveFun
    exact foldl_sieveStep_prime hn' _ _
      (fun q hql => (List.mem_range'_1.1 hql).1) (decide_eq_true hn'.two_le)

/-- The primes below `m`, listed in order, are the first
`Nat.count Nat.Prime m` values of `Nat.nth Nat.Prime`. -/
theorem filter_prime_range (m : ℕ) :
    (List.range m).filter (fun i => decide i.Prime)
      = (List.range (Nat.count Nat.Prime m)).map (Nat.nth Nat.Prime) := by
  induction m with
  | zero => simp
  | succ m ih =>
    rw [List.range_succ, List.filter_append, ih]
    by_cases hm : m.Prime
    · rw [Nat.count_succ, if_pos hm, List.range_succ, List.map_append]
      congr 1
      simp [hm, Nat.nth_count hm]
    · rw [Nat.count_succ, if_neg hm]
      simp [hm]

/-- The sieve pool equals the initial segment of the primes. -/
theorem primesUpto_eq (limit : ℕ) :
    primesUpto limit
      = (List.range (Nat.count Nat.Prime (limit + 1))).map (Nat.nth Nat.Prime) := by
  unfold primesUpto
  rw [← filter_prime_range]
  apply List.filter_congr
  intro x hx
  have hxle : x ≤ limit := by have := List.mem_range.1 hx; omega
  by_cases hp : x.Prime
  · rw [(sieveFun_eq_true_iff hxle).2 hp, decide_eq_true hp]
  · have hne : sieveFun limit x ≠ true :=
      fun habs => hp ((sieveFun_eq_true_iff hxle).1 habs)
    have hfalse : sieveFun limit x = false := Bool.eq_false_iff.2 hne
    rw [hfalse, decide_eq_false hp]

/-- Length of the sieve pool. -/
theorem primesUpto_length (limit : ℕ) :
    (primesUpto limit).length = Nat.count Nat.Prime (limit + 1) := by
  rw [primesUpto_eq]
  simp

/-- The first prime is 2. -/
theorem nth_prime_zero : Nat.nth Nat.Prime 0 = 2 := by
  have h2 : Nat.Prime 2 := Nat.prime_two
  have hc : Nat.count Nat.Prime 2 = 0 := by
    simp [Nat.count_succ, Nat.count_zero, Nat.not_prime_zero, Nat.not_prime_one]
  calc Nat.nth Nat.Prime 0 = Nat.nth Nat.Prime (Nat.count Nat.Prime 2) := by rw [hc]
    _ = 2 := Nat.nth_count h2

/-- Dropping 2 from the sieve pool leaves the primes from 3 on, i.e. the
values `Nat.nth Nat.Prime (i + 1)`. -/
theorem primesNo2Upto_eq (limit : ℕ) :
    primesNo2Upto limit
      = (List.range (Nat.count Nat.Prime (limit + 1) - 1)).map
          (fun i => Nat.nth Nat.Prime (i + 1)) := by
  unfold primesNo2Upto
  rw [primesUpto_eq]
  cases hc : Nat.count Nat.Prime (limit + 1) with
  | zero => simp
  | succ c =>
    rw [List.range_succ_eq_map, List.map_cons, List.map_map, List.filter_cons]
    rw [nth_prime_zero]
    have hhead : (decide ((2 : ℕ) ≠ 2)) = false := by simp
    rw [hhead]
    have hkeep : (((List.range c).map (Nat.nth Nat.Prime ∘ Nat.succ)).filter
        (fun p => decide (p ≠ 2)))
        = (List.range c).map (Nat.nth Nat.Prime ∘ Nat.succ) := by
      rw [List.filter_eq_self]
      intro x hx
      rw [List.mem_map] at hx
      obtain ⟨i, _, rfl⟩ := hx
      have hlt : Nat.nth Nat.Prime 0 < Nat.nth Nat.Prime (i + 1) :=
        (Nat.nth_lt_nth Nat.infinite_setOf_prime).2 (by omega)
      rw [nth_prime_zero] at hlt
      refine decide_eq_true ?_
      simp only [Function.comp_apply, Nat.succ_eq_add_one]
      omega
    simp only [Bool.false_eq_true, if_false, hkeep, Nat.succ_sub_one]
    rfl

/-- Length of the 2-free pool. -/
theorem primesNo2Upto_length (limit : ℕ) :
    (primesNo2Upto limit).length = Nat.count Nat.Prime (limit + 1) - 1 := by
  rw [primesNo2Upto_eq]
  simp

/-- Once the limit is beyond the `numPrimes`-th prime, the sieve pool is
large enough. -/
theorem length_primesUpto_ge {numPrimes limit : ℕ}
    (h : Nat.nth Nat.Prime numPrimes + 1 ≤ limit) :
    numPrimes ≤ (primesUpto limit).length := by
  rw [primesUpto_length]
  by_contra hc
  push_neg at hc
  have h2 : Nat.count Nat.Prime (limit + 1) ≤ numPrimes := by omega
  have h3 := (Nat.count_le_iff_le_nth Nat.infinite_setOf_prime).1 h2
  have h4 : limit + 1 ≤ Nat.nth Nat.Prime numPrimes := h3
  omega

/-- Once the limit is beyond the `numPrimes`-th prime, the 2-free pool is
large enough. -/
theorem length_primesNo2Upto_ge {numPrimes limit : ℕ}
    (h : Nat.nth Nat.Prime numPrimes + 1 ≤ limit) :
    numPrimes ≤ (primesNo2Upto limit).length := by
  rw [primesNo2Upto_length]
  by_contra hc
  push_neg at hc
  have h2 : Nat.count Nat.Prime (limit + 1) ≤ numPrimes := by omega
  have h3 := (Nat.count_le_iff_le_nth Nat.infinite_setOf_prime).1 h2
  have h4 : limit + 1 ≤ Nat.nth Nat.Prime numPrimes := h3
  omega

/-- When the pool is already large enough the loop returns its truncated
pool. -/
theorem generate_primes_stop {numPrimes limit : ℕ} (hl : 2 ≤ limit)
    (h : numPrimes ≤ (primesUpto limit).length) :
    generate_primes numPrimes limit hl
      = (List.range numPrimes).map (Nat.nth Nat.Prime) := by
  rw [generate_primes, dif_pos h]
  rw [primesUpto_eq, ← List.map_take, List.take_range]
  have hc : numPrimes ≤ Nat.count Nat.Prime (limit + 1) := by
    rw [← primesUpto_length]; exact h
  have hmin : numPrimes ⊓ Nat.count Nat.Prime (limit + 1) = numPrimes := by omega
  rw [hmin]

/-- The retry loop of `generate_primes` always returns exactly the first
`numPrimes` primes. -/
theorem generate_primes_eq (numPrimes limit : ℕ) (hl : 2 ≤ limit) :
    generate_primes numPrimes limit hl
      = (List.range numPrimes).map (Nat.nth Nat.Prime) := by
  have main : ∀ (fuel limit : ℕ) (hl : 2 ≤ limit),
      Nat.nth Nat.Prime numPrimes + 2 - limit ≤ fuel →
      generate_primes numPrimes limit hl
        = (List.range numPrimes).map (Nat.nth Nat.Prime) := by
    intro fuel
    induction fuel with
    | zero =>
      intro limit hl hf
      exact generate_primes_stop hl (length_primesUpto_ge (by omega))
    | succ f ih =>
      intro limit hl hf
      by_cases h : numPrimes ≤ (primesUpto limit).length
      · exact generate_primes_stop hl h
      · rw [generate_primes, dif_neg h]
        have hub : limit ≤ Nat.nth Nat.Prime numPrimes := by
          by_contra hcon
          push_neg at hcon
          exact h (length_primesUpto_ge (by omega))
        exact ih _ (by omega) (by omega)
  exact main _ limit hl (le_refl _)

/-- Stop case of the no-2 variant. -/
theorem generate_primes_no2_stop {numPrimes limit : ℕ} (hl : 2 ≤ limit)
    (h : numPrimes ≤ (primesNo2Upto limit).length) :
    generate_primes_no2 numPrimes limit hl
      = (List.range numPrimes).map (fun i => Nat.nth Nat.Prime (i + 1)) := by
  rw [generate_primes_no2, dif_pos h]
  rw [primesNo2Upto_eq, ← List.map_take, List.take_range]
  have hc : numPrimes ≤ Nat.count Nat.Prime (limit + 1) - 1 := by
    rw [← primesNo2Upto_length]; exact h
  have hmin : numPrimes ⊓ (Nat.count Nat.Prime (limit + 1) - 1) = numPrimes := by omega
  rw [hmin]

/-- The retry loop of the variant that drops 2 returns the primes from 3
on. -/
theorem generate_primes_no2_eq (numPrimes limit : ℕ) (hl : 2 ≤ limit) :
    generate_primes_no2 numPrimes limit hl
      = (List.range numPrimes).map (fun i => Nat.nth Nat.Prime (i + 1)) := by
  have main : ∀ (fuel limit : ℕ) (hl : 2 ≤ limit),
      Nat.nth Nat.Prime numPrimes + 2 - limit ≤ fuel →
      generate_primes_no2 numPrimes limit hl
        = (List.range numPrimes).map (fun i => Nat.nth Nat.Prime (i + 1)) := by
    intro fuel
    induction fuel with
    | zero =>
      intro limit hl hf
      exact generate_primes_no2_stop hl (length_primesNo2Upto_ge (by omega))
    | succ f ih =>
      intro limit hl hf
      by_cases h : numPrimes ≤ (primesNo2Upto limit).length
      · exact generate_primes_no2_stop hl h
      · rw [generate_primes_no2, dif_neg h]
        have hub : limit ≤ Nat.nth Nat.Prime numPrimes := by
          by_contra hcon
          push_neg at hcon
          exact h (length_primesNo2Upto_ge (by omega))
        exact ih _ (by omega) (by omega)
  exact main _ limit hl (le_refl _)

/-- The list of the first `m` primes is strictly increasing. -/
theorem sorted_map_nth_range (m : ℕ) :
    List.Sorted (· < ·) ((List.range m).map (Nat.nth Nat.Prime)) := by
  rw [List.Sorted, List.pairwise_map]
  exact (List.pairwise_lt_range m).imp
    (fun hab => (Nat.nth_lt_nth Nat.infinite_setOf_prime).2 hab)

/-- The list of the primes from 3 on is strictly increasing. -/
theorem sorted_map_nth_succ_range (m : ℕ) :
    List.Sorted (· < ·) ((List.range m).map (fun i => Nat.nth Nat.Prime (i + 1))) := by
  rw [List.Sorted, List.pairwise_map]
  exact (List.pairwise_lt_range m).imp
    (fun hab => (Nat.nth_lt_nth Nat.infinite_setOf_prime).2 (by omega))

/-- C1.  For every requested count and every starting sieve limit (the
float heuristic always starts at 15; any start at least 2 works),
`generate_primes` terminates — it is a total function of Lean's
well-founded recursion — and returns exactly the requested number of
strictly increasing primes, the `i`-th being the `i`-th prime; the
variant of `prime-index-curvature.py` that excludes 2 returns the
`(i+1)`-th primes, starting at 3.  Undershoot is repaired by growing the
limit by the factor 1.5 and retrying, so fewer than `numPrimes` values
are never returned. -/
theorem c1_generate_primes_first_primes (numPrimes limit : ℕ) (hl : 2 ≤ limit) :
    generate_primes numPrimes limit hl
        = (List.range numPrimes).map (Nat.nth Nat.Prime) ∧
    (generate_primes numPrimes limit hl).length = numPrimes ∧
    List.Sorted (· < ·) (generate_primes numPrimes limit hl) ∧
    (∀ q ∈ generate_primes numPrimes limit hl, q.Prime) ∧
    (∀ i, i < numPrimes →
      (generate_primes numPrimes limit hl).getD i 0 = Nat.nth Nat.Prime i) ∧
    generate_primes_no2 numPrimes limit hl
        = (List.range numPrimes).map (fun i => Nat.nth Nat.Prime (i + 1)) ∧
    (generate_primes_no2 numPrimes limit hl).length = numPrimes ∧
    List.Sorted (· < ·) (generate_primes_no2 numPrimes limit hl) := by
  have he := generate_primes_eq numPrimes limit hl
  have he2 := generate_primes_no2_eq numPrimes limit hl
  refine ⟨he, ?_, ?_, ?_, ?_, he2, ?_, ?_⟩
  · rw [he]; simp
  · rw [he]; exact sorted_map_nth_range numPrimes
  · intro q hq
    rw [he, List.mem_map] at hq
    obtain ⟨i, _, rfl⟩ := hq
    exact Nat.prime_nth_prime i
  · intro i hi
    rw [he]
    rw [List.getD_eq_getElem?_getD, List.getElem?_map, List.getElem?_range hi]
    rfl
  · rw [he2]; simp
  · rw [he2]; exact sorted_map_nth_succ_range numPrimes

/-- C1, witness. -/
theorem c1_generate_primes_witness :
    generate_primes 5 15 (by norm_num)
        = (List.range 5).map (Nat.nth Nat.Prime) ∧
    generate_primes_no2 5 15 (by norm_num)
        = (List.range 5).map (fun i => Nat.nth Nat.Prime (i + 1)) :=
  ⟨(c1_generate_primes_first_primes 5 15 (by norm_num)).1,
   (c1_generate_primes_first_primes 5 15 (by norm_num)).2.2.2.2.2.1⟩

/-- A truncated prefix of an insertion-sorted list is sorted. -/
theorem sorted_insertionSort_take (l : List ℚ) (t : ℕ) :
    ((List.insertionSort (· ≤ ·) l).take t).Sorted (· ≤ ·) :=
  List.Pairwise.sublist (List.take_sublist t _) (List.sorted_insertionSort _ l)

/-- The symmetry of any tri-diagonal matrix whose sub- and super-diagonal
are the same array. -/
theorem tridiag_shared_symm (sub main : List ℚ) (i j : ℕ) :
    tridiag sub main sub i j = tridiag sub main sub j i := by
  unfold tridiag
  rcases eq_or_ne i j with rfl | hij
  · simp
  · rw [if_neg hij, if_neg (Ne.symm hij)]
    by_cases h2 : i = j + 1
    · rw [if_pos h2, if_neg (by omega), if_pos h2]
    · rw [if_neg h2]
      by_cases h3 : j = i + 1
      · rw [if_pos h3, if_pos h3]
      · rw [if_neg h3, if_neg h3, if_neg h2]

/-! ### Least-squares recovery -/

/-- Expansion of a sum of squared differences. -/
theorem sum_map_sq_sub (a : ℚ) (t : List ℚ) :
    (t.map fun y => (a - y) ^ 2).sum
      = (t.length : ℚ) * (a * a) - 2 * a * t.sum + (t.map fun y => y * y).sum := by
  induction t with
  | nil => simp
  | cons b u ih =>
    simp only [List.map_cons, List.sum_cons, List.length_cons, Nat.cast_add,
      Nat.cast_one, ih]
    ring

/-- The normal-equation denominator satisfies the cons recursion
`d (a :: t) = d t + sum of (a - y)^2 over t`. -/
theorem denom_cons (a : ℚ) (t : List ℚ) :
    (((a :: t).length : ℚ) * ((a :: t).map fun y => y * y).sum
        - (a :: t).sum * (a :: t).sum)
      = ((t.length : ℚ) * (t.map fun y => y * y).sum - t.sum * t.sum)
        + (t.map fun y => (a - y) ^ 2).sum := by
  rw [sum_map_sq_sub]
  simp only [List.map_cons, List.sum_cons, List.length_cons, Nat.cast_add, Nat.cast_one]
  ring

/-- Sums of squared differences are nonnegative. -/
theorem sum_sq_sub_nonneg (a : ℚ) (t : List ℚ) :
    0 ≤ (t.map fun y => (a - y) ^ 2).sum := by
  refine List.sum_nonneg fun z hz => ?_
  rw [List.mem_map] at hz
  obtain ⟨y, _, rfl⟩ := hz
  positivity

/-- The normal-equation denominator `n * sum x^2 - (sum x)^2` is
nonnegative. -/
theorem denom_nonneg (x : List ℚ) :
    0 ≤ (x.length : ℚ) * (x.map fun y => y * y).sum - x.sum * x.sum := by
  induction x with
  | nil => simp
  | cons a t ih =>
    rw [denom_cons]
    have := sum_sq_sub_nonneg a t
    linarith

/-- The normal-equation denominator is positive as soon as the sample
contains two distinct values. -/
theorem denom_pos (x : List ℚ) (u : ℚ) (hu : u ∈ x) (v : ℚ) (hv : v ∈ x)
    (huv : u ≠ v) :
    0 < (x.length : ℚ) * (x.map fun y => y * y).sum - x.sum * x.sum := by
  induction x with
  | nil => exact absurd hu (List.not_mem_nil u)
  | cons a t ih =>
    rw [denom_cons]
    have hd := denom_nonneg t
    rcases List.mem_cons.1 hu with rfl | hut
    · rcases List.mem_cons.1 hv with rfl | hvt
      · exact absurd rfl huv
      · have h1 : (u - v) ^ 2 ≤ (t.map fun y => (u - y) ^ 2).sum :=
          List.single_le_sum
            (fun z hz => by
              rw [List.mem_map] at hz
              obtain ⟨y, _, rfl⟩ := hz
              positivity)
            _ (List.mem_map_of_mem _ hvt)
        have h2 : 0 < (u - v) ^ 2 := by
          have h0 : u - v ≠ 0 := sub_ne_zero.2 huv
          positivity
        linarith
    · rcases List.mem_cons.1 hv with rfl | hvt
      · have h1 : (v - u) ^ 2 ≤ (t.map fun y => (v - y) ^ 2).sum :=
          List.single_le_sum
            (fun z hz => by
              rw [List.mem_map] at hz
              obtain ⟨y, _, rfl⟩ := hz
              positivity)
            _ (List.mem_map_of_mem _ hut)
        have h2 : 0 < (v - u) ^ 2 := by
          have h0 : v - u ≠ 0 := sub_ne_zero.2 (Ne.symm huv)
          positivity
        linarith
      · have h3 := ih hut hvt
        have h4 := sum_sq_sub_nonneg a t
        linarith

/-- Sum of the exact affine reference data. -/
theorem sum_map_affine (x : List ℚ) :
    (x.map fun t => 3 * t + 7).sum = 3 * x.sum + 7 * (x.length : ℚ) := by
  induction x with
  | nil => simp
  | cons a t ih =>
    simp only [List.map_cons, List.sum_cons, List.length_cons, Nat.cast_add,
      Nat.cast_one, ih]
    ring

/-- Cross sum of the samples with the exact affine reference data. -/
theorem sum_zip_affine (x : List ℚ) :
    (List.zipWith (· * ·) x (x.map fun t => 3 * t + 7)).sum
      = 3 * (x.map fun a => a * a).sum + 7 * x.sum := by
  induction x with
  | nil => simp
  | cons a t ih =>
    simp only [List.map_cons, List.zipWith_cons_cons, List.sum_cons, ih]
    ring

/-- On noiseless data `y = 3 x + 7` with two distinct sample points, the
degree-1 least-squares fit recovers the coefficients exactly. -/
theorem polyfit_exact_affine (x : List ℚ) (hne : x ≠ [])
    (hd : (x.length : ℚ) * (x.map fun y => y * y).sum - x.sum * x.sum ≠ 0) :
    polyfitDeg1 x (x.map fun t => 3 * t + 7) = Except.ok (3, 7) := by
  have hlen : x.length ≠ 0 := fun h0 => hne (List.length_eq_zero.1 h0)
  have hn0 : (x.length : ℚ) ≠ 0 := Nat.cast_ne_zero.2 hlen
  have key : (x.length : ℚ) * (List.zipWith (· * ·) x (x.map fun t => 3 * t + 7)).sum
      - x.sum * (x.map fun t => 3 * t + 7).sum
      = 3 * ((x.length : ℚ) * (x.map fun y => y * y).sum - x.sum * x.sum) := by
    rw [sum_map_affine, sum_zip_affine]
    ring
  simp only [polyfitDeg1, List.length_map]
  rw [key, mul_div_assoc, div_self hd, mul_one, sum_map_affine]
  have hB : (3 * x.sum + 7 * (x.length : ℚ) - 3 * x.sum) / (x.length : ℚ) = 7 := by
    field_simp
  rw [hB, if_neg (show ¬(x.length = 0 ∨ x.length ≠ x.length) by simp [hlen])]

/-- Relative errors of a prediction list against itself are all zero. -/
theorem zip_rel_self (L : List ℚ) :
    List.zipWith (fun p z => |(p - z) / z| * 100) L L
      = List.replicate L.length 0 := by
  induction L with
  | nil => rfl
  | cons a t ih =>
    simp only [List.zipWith_cons_cons, sub_self, zero_div, abs_zero, zero_mul,
      ih, List.length_cons, List.replicate_succ]

/-- Folding `max` from 0 over zeros gives 0. -/
theorem foldl_max_replicate_zero (m : ℕ) :
    (List.replicate m (0 : ℚ)).foldl max 0 = 0 := by
  induction m with
  | zero => rfl
  | succ k ih => simp only [List.replicate_succ, List.foldl_cons, max_self, ih]

/-- C6.  Fitting the affine model on reference data generated exactly by
`ref = 3*eig + 7` recovers `a = 3` and `b = 7` exactly (in particular to
within 1e-6) whenever the fitted prefix contains two distinct eigenvalues,
and evaluating that fitted model on the same data yields mean and max
relative error both equal to 0. -/
theorem c6_affine_round_trip (eigs : List ℚ) (fit_n eval_n : ℕ)
    (hdist : ∃ u ∈ eigs.take fit_n, ∃ v ∈ eigs.take fit_n, u ≠ v)
    (he : 1 ≤ eval_n) :
    NmH.fit_affine eigs (eigs.map fun t => 3 * t + 7) fit_n = Except.ok (3, 7) ∧
    ∃ zh, NmH.evaluate_fit eigs (eigs.map fun t => 3 * t + 7) 3 7 eval_n
      = Except.ok (0, 0, zh) := by
  obtain ⟨u, hu, v, hv, huv⟩ := hdist
  have hee : 1 ≤ eigs.length := by
    have hmem : u ∈ eigs := List.take_subset fit_n eigs hu
    exact List.length_pos.2 (List.ne_nil_of_mem hmem)
  constructor
  · unfold NmH.fit_affine
    rw [← List.map_take]
    apply polyfit_exact_affine
    · exact fun h0 => absurd hu (h0 ▸ List.not_mem_nil u)
    · exact ne_of_gt (denom_pos _ u hu v hv huv)
  · simp only [NmH.evaluate_fit, List.length_map, min_self]
    rw [← List.map_take]
    have hlz : ((eigs.take (min eval_n eigs.length)).map
        (fun t => 3 * t + 7)).length = min eval_n eigs.length := by
      simp
    obtain ⟨m, hm⟩ : ∃ m, min eval_n eigs.length = m + 1 := by
      refine ⟨min eval_n eigs.length - 1, ?_⟩
      omega
    refine ⟨(eigs.take (min eval_n eigs.length)).map fun t => 3 * t + 7, ?_⟩
    rw [zip_rel_self, hlz, hm, List.replicate_succ]
    simp only [List.sum_cons, List.sum_replicate, smul_zero, add_zero, zero_div,
      foldl_max_replicate_zero]

/-- C6, witness. -/
theorem c6_affine_round_trip_witness :
    NmH.fit_affine [0, 1] ([0, 1].map fun t => 3 * t + 7) 2 = Except.ok (3, 7) ∧
    ∃ zh, NmH.evaluate_fit [0, 1] ([0, 1].map fun t => 3 * t + 7) 3 7 2
      = Except.ok (0, 0, zh) :=
  c6_affine_round_trip [0, 1] 2 2 ⟨0, by norm_num, 1, by norm_num, by norm_num⟩
    (by norm_num)

/-- C2.  The fast two-pointer sliding-window composite-density computation
does NOT return, at every position, the same value as a brute-force rescan
of the window: with `primes = [2,3,5,7]`, support `n = [3,4]` and radius
`1`, the fast code reports `2/3` at the second position while the
brute-force window `[3,5]` contains the primes 3 and 5, giving `1/3`.
The single pointer `j` has already been advanced past prime 3 while
scanning the first window and is never moved back. -/
theorem c2_sliding_window_mismatch :
    local_composite_fraction [2, 3, 5, 7] [3, 4] 1 = [1/3, 2/3] ∧
    bruteCompositeFraction [2, 3, 5, 7] [3, 4] 1 = [1/3, 1/3] ∧
    local_composite_fraction [2, 3, 5, 7] [3, 4] 1
      ≠ bruteCompositeFraction [2, 3, 5, 7] [3, 4] 1 := by
  refine ⟨?_, ?_, ?_⟩
  · norm_num [local_composite_fraction, lcfGo, skipWhile, skipCount]
  · norm_num [bruteCompositeFraction, List.countP_cons, List.countP_nil]
  · norm_num [local_composite_fraction, lcfGo, skipWhile, skipCount,
      bruteCompositeFraction, List.countP_cons, List.countP_nil]

/-- C3, counterexample.  The non-uniform finite-difference log-grid
operator is not symmetric: on the grid `t = [0, 1, 3, 7]` (zero
potential), the entry `(1, 2)` is `-1/6` while `(2, 1)` is `-1/12`. -/
theorem c3_counterexample :
    HG.build_hamiltonian_log (HG.build_laplacian_log_grid [0, 1, 3, 7]).1
        (HG.build_laplacian_log_grid [0, 1, 3, 7]).2.1
        (HG.build_laplacian_log_grid [0, 1, 3, 7]).2.2 [0, 0, 0, 0] 1 2
      ≠ HG.build_hamiltonian_log (HG.build_laplacian_log_grid [0, 1, 3, 7]).1
        (HG.build_laplacian_log_grid [0, 1, 3, 7]).2.1
        (HG.build_laplacian_log_grid [0, 1, 3, 7]).2.2 [0, 0, 0, 0] 2 1 := by
  norm_num [HG.build_hamiltonian_log, HG.build_laplacian_log_grid, tridiag, diffQ,
    List.range_succ]

/-- C3, amended.  The operators assembled with a shared sub/super-diagonal
array — the index-grid variant and the quadratic-form log-grid variant of
`nm_hamiltonian.py` — equal their own transpose, clamped boundary rows and
columns included; the finite-difference log-grid variant of
`prime-index-curvature-hilbert-grid.py` does not (see the
counterexample). -/
theorem c3_shared_diag_operators_symmetric (n : ℕ) (t V W : List ℚ) (i j : ℕ) :
    NmH.build_hamiltonian (NmH.build_laplacian_index n).1
        (NmH.build_laplacian_index n).2 V i j
      = NmH.build_hamiltonian (NmH.build_laplacian_index n).1
        (NmH.build_laplacian_index n).2 V j i ∧
    NmH.build_hamiltonian (NmH.build_laplacian_log t).1
        (NmH.build_laplacian_log t).2 W i j
      = NmH.build_hamiltonian (NmH.build_laplacian_log t).1
        (NmH.build_laplacian_log t).2 W j i := by
  constructor
  · exact tridiag_shared_symm _ _ i j
  · exact tridiag_shared_symm _ _ i j

/-- C4, counterexample.  When the eigensolver fails to converge and the
partial eigenvalue list is empty, `compute_eigenvalues` of `rhz.py` does
raise (the `ArpackNoConvergence` exception is re-raised) instead of
returning the empty partial spectrum. -/
theorem c4_counterexample :
    Rhz.compute_eigenvalues 10 (ArpackOutcome.noConv []) 5
      = Except.error arpackRaiseMsg := rfl

/-- C4, amended.  If the iterative eigensolver fails to converge and at
least one eigenvalue did converge, the solver does not raise: it returns
the partial eigenvalues sorted ascending and truncated to the first `K`
(after the `K < N` cap); when no eigenvalue converged, `rhz.py` re-raises
(while `n-grid-operator.py`'s `compute_evals` always returns a sorted
list of at most `k` values). -/
theorem c4_partial_convergence (N target : ℕ) (vs : List ℚ) (hvs : vs ≠ []) :
    Rhz.compute_eigenvalues N (ArpackOutcome.noConv vs) target
        = Except.ok ((List.insertionSort (· ≤ ·) vs).take
            (if N ≤ target then N - 1 else target)) ∧
    ((List.insertionSort (· ≤ ·) vs).take
        (if N ≤ target then N - 1 else target)).Sorted (· ≤ ·) ∧
    ((List.insertionSort (· ≤ ·) vs).take
        (if N ≤ target then N - 1 else target)).length ≤ target ∧
    (∀ k, (NGrid.compute_evals (ArpackOutcome.noConv vs) k).Sorted (· ≤ ·) ∧
      (NGrid.compute_evals (ArpackOutcome.noConv vs) k).length ≤ k) := by
  have hlen : vs.length ≠ 0 := fun h0 => hvs (List.length_eq_zero.1 h0)
  refine ⟨?_, sorted_insertionSort_take vs _, ?_, fun k => ⟨?_, ?_⟩⟩
  · simp only [Rhz.compute_eigenvalues, if_neg hlen]
  · rw [List.length_take, List.length_insertionSort]
    rcases le_or_lt N target with hNt | hNt
    · rw [if_pos hNt]; omega
    · rw [if_neg (by omega)]; omega
  · exact List.sorted_insertionSort _ _
  · simp only [NGrid.compute_evals, List.length_insertionSort, List.length_take]
    omega

/-- C4, witness. -/
theorem c4_partial_convergence_witness :
    Rhz.compute_eigenvalues 10 (ArpackOutcome.noConv [2, 1]) 5
        = Except.ok ((List.insertionSort (· ≤ ·) ([2, 1] : List ℚ)).take
            (if 10 ≤ 5 then 10 - 1 else 5)) ∧
    ((List.insertionSort (· ≤ ·) ([2, 1] : List ℚ)).take
        (if 10 ≤ 5 then 10 - 1 else 5)).Sorted (· ≤ ·) ∧
    ((List.insertionSort (· ≤ ·) ([2, 1] : List ℚ)).take
        (if 10 ≤ 5 then 10 - 1 else 5)).length ≤ 5 ∧
    (∀ k, (NGrid.compute_evals (ArpackOutcome.noConv [2, 1]) k).Sorted (· ≤ ·) ∧
      (NGrid.compute_evals (ArpackOutcome.noConv [2, 1]) k).length ≤ k) :=
  c4_partial_convergence 10 5 [2, 1] (by decide)

/-- C5.  Every Spectrum the pipeline's solver wrappers return is
non-decreasing and has length at most the requested count:
`lowest_eigenvalues` of `nm_hamiltonian.py` (ARPACK returns
`min k (n - 2)` values for the `n x n` operator, then they are sorted)
and every successfully returned list of `compute_eigenvalues` of
`rhz.py`. -/
theorem c5_spectrum_sorted_and_short
    (n k : ℕ) (vs : List ℚ) (hlen : vs.length = min k (n - 2))
    (N target : ℕ) (outcome : ArpackOutcome) :
    ((NmH.lowest_eigenvalues n k vs).Sorted (· ≤ ·) ∧
      (NmH.lowest_eigenvalues n k vs).length ≤ k) ∧
    (∀ l, Rhz.compute_eigenvalues N outcome target = Except.ok l →
      l.Sorted (· ≤ ·) ∧ l.length ≤ target) := by
  constructor
  · refine ⟨List.sorted_insertionSort _ _, ?_⟩
    rw [NmH.lowest_eigenvalues, List.length_insertionSort, hlen]
    omega
  · intro l hl
    have htle : (if N ≤ target then N - 1 else target) ≤ target := by
      rcases le_or_lt N target with hNt | hNt
      · rw [if_pos hNt]; omega
      · rw [if_neg (by omega)]
    cases outcome with
    | ok ws =>
      simp only [Rhz.compute_eigenvalues, Except.ok.injEq] at hl
      subst hl
      refine ⟨sorted_insertionSort_take ws _, ?_⟩
      rw [List.length_take, List.length_insertionSort]
      omega
    | noConv ws =>
      simp only [Rhz.compute_eigenvalues] at hl
      by_cases h0 : ws.length = 0
      · rw [if_pos h0] at hl; exact absurd hl (by simp)
      · rw [if_neg h0] at hl
        simp only [Except.ok.injEq] at hl
        subst hl
        refine ⟨sorted_insertionSort_take ws _, ?_⟩
        rw [List.length_take, List.length_insertionSort]
        omega

/-- C5, witness. -/
theorem c5_spectrum_sorted_and_short_witness :
    ((NmH.lowest_eigenvalues 10 3 [2, 1, 3]).Sorted (· ≤ ·) ∧
      (NmH.lowest_eigenvalues 10 3 [2, 1, 3]).length ≤ 3) ∧
    (∀ l, Rhz.compute_eigenvalues 7 (ArpackOutcome.ok [5, 6]) 4 = Except.ok l →
      l.Sorted (· ≤ ·) ∧ l.length ≤ 4) :=
  c5_spectrum_sorted_and_short 10 3 [2, 1, 3] (by decide) 7 4 (ArpackOutcome.ok [5, 6])

/-- C7, counterexample.  With zero available paired samples (an empty
Spectrum, as a fully non-converged solve can produce) and a requested
prefix of 1, fitting and evaluation do crash instead of clamping:
`np.polyfit` raises on empty input and `np.ndarray.max` raises on a
zero-size array. -/
theorem c7_counterexample :
    HG.fit_affine [] [] 1 = Except.error polyfitRaiseMsg ∧
    HG.evaluate_model (fun x => x) affineTag [] [] [1, 2] 1
      = Except.error emptyMaxRaiseMsg :=
  ⟨rfl, rfl⟩

/-- C7, amended.  Whenever at least one paired sample is available,
requesting `fit_n` or `eval_n` beyond the available paired length does
not crash: both calls clamp to the available length (the results equal
the results for the clamped arguments) and return the mean and max
relative error computed on the clamped prefix. -/
theorem c7_clamp_with_available_sample (lg : ℚ → ℚ) (lam zeros : List ℚ)
    (a b : ℚ) (fit_n eval_n : ℕ)
    (h1 : 1 ≤ min lam.length zeros.length)
    (hf : min lam.length zeros.length ≤ fit_n)
    (he : min lam.length zeros.length ≤ eval_n) :
    HG.fit_affine lam zeros fit_n
        = HG.fit_affine lam zeros (min fit_n (min lam.length zeros.length)) ∧
    HG.evaluate_model lg affineTag lam zeros [a, b] eval_n
        = HG.evaluate_model lg affineTag lam zeros [a, b]
            (min eval_n (min lam.length zeros.length)) ∧
    (∃ p, HG.fit_affine lam zeros fit_n = Except.ok p) ∧
    (∃ r, HG.evaluate_model lg affineTag lam zeros [a, b] eval_n
      = Except.ok r) := by
  have hmf : min (min fit_n (min lam.length zeros.length))
      (min lam.length zeros.length) = min fit_n (min lam.length zeros.length) := by
    omega
  have hme : min (min eval_n (min lam.length zeros.length))
      (min lam.length zeros.length) = min eval_n (min lam.length zeros.length) := by
    omega
  have hfn : min fit_n (min lam.length zeros.length)
      = min lam.length zeros.length := by omega
  have hen : min eval_n (min lam.length zeros.length)
      = min lam.length zeros.length := by omega
  refine ⟨?_, ?_, ?_, ?_⟩
  · unfold HG.fit_affine
    rw [hmf]
  · unfold HG.evaluate_model
    rw [hme]
  · unfold HG.fit_affine
    rw [hfn]
    unfold polyfitDeg1
    rw [if_neg (by rw [List.length_take, List.length_take]; omega)]
    exact ⟨_, rfl⟩
  · simp only [HG.evaluate_model, eq_self_iff_true, if_true, hen]
    have hlenzip : (List.zipWith (fun p z => |(p - z) / z| * 100)
        ((lam.take (min lam.length zeros.length)).map fun x => a * x + b)
        (zeros.take (min lam.length zeros.length))).length
        = min lam.length zeros.length := by
      rw [List.length_zipWith, List.length_map, List.length_take, List.length_take]
      omega
    rcases hrel : List.zipWith (fun p z => |(p - z) / z| * 100)
        ((lam.take (min lam.length zeros.length)).map fun x => a * x + b)
        (zeros.take (min lam.length zeros.length)) with _ | ⟨r, rs⟩
    · rw [hrel] at hlenzip
      simp at hlenzip
      omega
    · exact ⟨_, rfl⟩

/-- C7, witness. -/
theorem c7_clamp_witness :
    HG.fit_affine [1, 2] [3, 4] 5
        = HG.fit_affine [1, 2] [3, 4]
            (min 5 (min ([1, 2] : List ℚ).length ([3, 4] : List ℚ).length)) ∧
    HG.evaluate_model (fun x => x) affineTag [1, 2] [3, 4] [1, 1] 5
        = HG.evaluate_model (fun x => x) affineTag [1, 2] [3, 4] [1, 1]
            (min 5 (min ([1, 2] : List ℚ).length ([3, 4] : List ℚ).length)) ∧
    (∃ p, HG.fit_affine [1, 2] [3, 4] 5 = Except.ok p) ∧
    (∃ r, HG.evaluate_model (fun x => x) affineTag [1, 2] [3, 4] [1, 1] 5
      = Except.ok r) :=
  c7_clamp_with_available_sample (fun x => x) [1, 2] [3, 4] 1 1 5 5
    (by norm_num) (by norm_num) (by norm_num)

/-- C8, counterexample.  A checkpoint file that exists but cannot be
parsed makes the resume step abort: the `pickle.load` failure propagates
(there is no try/except), so the batch is not restarted from scratch. -/
theorem c8_counterexample :
    RSZ.resume_checkpoint (CheckpointState.present none)
      = Except.error pickleRaiseMsg := rfl

/-- C8, amended.  On resume, only a missing checkpoint file is treated as
empty (the batch restarts from scratch); a checkpoint that exists and
parses resumes from its eigenvalues, and a checkpoint that exists but
cannot be parsed aborts the run with the parse error. -/
theorem c8_resume_semantics (e : List ℚ) :
    RSZ.resume_checkpoint CheckpointState.absent = Except.ok [] ∧
    RSZ.resume_checkpoint (CheckpointState.present (some e)) = Except.ok e ∧
    RSZ.resume_checkpoint (CheckpointState.present none)
      = Except.error pickleRaiseMsg :=
  ⟨rfl, rfl, rfl⟩

/-- C9, counterexample.  The optional curvature post-transforms do not
commute: downsampling with stride 2 and moving-average smoothing with
window 2, applied to the field `[1, 0, 0, 0]` in the two orders, give
`[1/2, 1/2]` and `[1/2, 0]`. -/
theorem c9_counterexample :
    (HG.maybe_downsample [1, 2, 3, 4] (HG.maybe_smooth [1, 0, 0, 0] 2) 2).2
      ≠ HG.maybe_smooth (HG.maybe_downsample [1, 2, 3, 4] [1, 0, 0, 0] 2).2 2 := by
  norm_num [HG.maybe_downsample, HG.maybe_smooth, HG.everyNth, convolveSame, convolveFull,
    List.range_succ, List.filterMap]

/-- The tail correction with `eta = 0` is the identity. -/
theorem shapeCorrGo_eta_zero (lg : ℚ → ℚ) (k : List ℚ) :
    ∀ n : ℕ, PIC.shapeCorrGo lg 0 n k = k := by
  induction k with
  | nil => intro n; rfl
  | cons x xs ih =>
    intro n
    simp only [PIC.shapeCorrGo, zero_mul, add_zero, mul_one, ih]

/-- C9, amended.  The optional post-transforms are pure functions of
their inputs, but they are not order-independent in general (see the
counterexample); only trivial-parameter instances commute, for example
the multiplicative tail correction with `eta = 0` is the identity and
hence commutes with the moving-average smoothing. -/
theorem c9_trivial_tail_correction_commutes (lg : ℚ → ℚ) (k : List ℚ) (w : ℕ) :
    PIC.apply_shape_correction lg (HG.maybe_smooth k w) 0
      = HG.maybe_smooth (PIC.apply_shape_correction lg k 0) w := by
  unfold PIC.apply_shape_correction
  rw [shapeCorrGo_eta_zero, shapeCorrGo_eta_zero]

/-- C10.  Every curvature value produced by `compute_curvature_field` is
nonnegative, for any nonnegative curvature constant `c` (the source uses
`c = 0.15`): the composite fraction `rho` is a count divided by the
positive window size, so `rho ≥ 0`; every kept prime satisfies
`p ≥ R + 2 ≥ 2`, so `log p ≥ 0` and
`sigma = log(1 + rho log p) ≥ log 1 = 0`; hence
`c * sigma^3 * sqrt(rho) ≥ 0`. -/
theorem c10_curvature_nonneg (primes : List ℕ) (window_radius : ℕ) (c : ℝ)
    (hc : 0 ≤ c) :
    ∀ x ∈ (NmH.compute_curvature_field primes window_radius c).2, 0 ≤ x := by
  intro x hx
  simp only [NmH.compute_curvature_field, List.mem_map] at hx
  obtain ⟨p, hp, rfl⟩ := hx
  have hp2 : 2 + window_radius ≤ p := by
    have hfp := (List.mem_filter.1 hp).2
    have := of_decide_eq_true hfp
    exact this.1
  have hrho : (0 : ℝ) ≤
      ((List.range' (p - window_radius) (2 * window_radius + 1)).countP
        (isCompositeMask (primes.getLastD 0 + window_radius + 5)) : ℝ)
        / (2 * (window_radius : ℝ) + 1) := by
    apply div_nonneg
    · exact Nat.cast_nonneg _
    · positivity
  have hlogp : (0 : ℝ) ≤ Real.log (p : ℝ) := by
    apply Real.log_nonneg
    have : (1 : ℝ) ≤ (2 : ℝ) := by norm_num
    have hcast : (2 : ℝ) ≤ (p : ℝ) := by
      exact_mod_cast (by omega : 2 ≤ p)
    linarith
  have hsigma : (0 : ℝ) ≤ Real.log (1 +
      ((List.range' (p - window_radius) (2 * window_radius + 1)).countP
        (isCompositeMask (primes.getLastD 0 + window_radius + 5)) : ℝ)
        / (2 * (window_radius : ℝ) + 1) * Real.log (p : ℝ)) := by
    apply Real.log_nonneg
    nlinarith [mul_nonneg hrho hlogp]
  have hsqrt := Real.sqrt_nonneg
    (((List.range' (p - window_radius) (2 * window_radius + 1)).countP
        (isCompositeMask (primes.getLastD 0 + window_radius + 5)) : ℝ)
        / (2 * (window_radius : ℝ) + 1))
  exact mul_nonneg (mul_nonneg hc (pow_nonneg hsigma 3)) hsqrt

/-- C10, witness. -/
theorem c10_curvature_nonneg_witness :
    0 ≤ ((NmH.compute_curvature_field [7] 2 (3 / 20)).2.getD 0 0) := by
  have h := c10_curvature_nonneg [7] 2 (3 / 20) (by norm_num)
  cases h2 : (NmH.compute_curvature_field [7] 2 (3 / 20)).2 with
  | nil => simp [List.getD]
  | cons a t =>
    have ha := h a (by rw [h2]; exact List.mem_cons_self a t)
    simpa [h2, List.getD] using ha

end OnGravity
